import Mathlib

/-!
Verification of the Puter ClaudeService adapter layer
(`src/unnamed/part_000`, the `ClaudeService` class) and of the tool-format
normalizer (`src/src/backend/src/modules/puterai/lib/FunctionCalling.js`).

The JavaScript is shallowly embedded: duck-typed JSON values become the
inductive `JsVal`, message objects become the structure `Msg`, the
`complete` handler's message loop becomes a `List.foldl` over an explicit
state, the token budget check becomes an `Except`-valued function over
exact rationals (JS number division is exact here), and the streaming
loop becomes a function from the provider event list to the trace of
actions it performs (stream writes, stream end, usage resolution).
-/

namespace Puter

/-- A JavaScript/JSON value, as the duck-typed code manipulates them.
`obj` keeps fields in insertion order, as JS objects do. -/
inductive JsVal where
  | null
  | bool (b : Bool)
  | num (n : Int)
  | str (s : String)
  | arr (elems : List JsVal)
  | obj (fields : List (String × JsVal))


/-- JS truthiness of a value: `null`, `false`, `0` and `""` are falsy;
arrays and objects are always truthy. (`undefined` is modelled as a
missing `Option` value wherever a field may be absent.) -/
def jsTruthy : JsVal → Bool
  | .null => false
  | .bool b => b
  | .num n => n != 0
  | .str s => s != ""
  | .arr _ => true
  | .obj _ => true

/-- JS truthiness of a possibly-absent field (`undefined` is falsy). -/
def truthyOpt : Option JsVal → Bool
  | some v => jsTruthy v
  | none => false

/-- A message object as the `complete` handler sees it:
a possibly-absent `role` field and a `content` field. -/
structure Msg where
  role : Option String
  content : JsVal


/-- The content part `{ type: 'text', text: s }` built at lines 64-67 of
the source. -/
def textPart (s : String) : JsVal :=
  .obj [("type", .str "text"), ("text", .str s)]

/-- Lines 63-71 of `complete`: a bare string content is wrapped as a text
part, and any non-array content is wrapped in a one-element array.
`Modelled from the spec:` the helper `whatis` (from `util/langutil`, not
under `src/`) is used only through the test `whatis(content) === 'array'`;
per the spec it recognizes exactly arrays, so it is modelled as matching
on the `arr` constructor. -/
def wrapContent (c : JsVal) : JsVal :=
  let c := match c with
    | .str s => textPart s
    | other => other
  match c with
  | .arr l => .arr l
  | other => .arr [other]

/-- Line 72 of `complete`: `if ( ! message.role ) message.role = 'user'`.
A missing or falsy (empty-string) role defaults to `"user"`. -/
def defaultRole (r : Option String) : String :=
  match r with
  | some s => if s = "" then "user" else s
  | none => "user"

/-- The in-place normalization a single caller message undergoes at
lines 63-72 of `complete`: content wrapped, role defaulted. -/
def normalizeMessage (m : Msg) : Msg :=
  { role := some (defaultRole m.role), content := wrapContent m.content }

/-- The elements of a (normalized) message's content array. -/
def contentList (m : Msg) : List JsVal :=
  match m.content with
  | .arr l => l
  | _ => []

/-- The merge `last_msg.content.push(...)` (lines 74-77): append parts onto a
message's content array. (The source's `Array.isArray ? ... : ...`
condition is the function object itself, hence always truthy, so the
message's content array is always spread.) -/
def mergeContent (parts : List JsVal) (m : Msg) : Msg :=
  { m with content := match m.content with
      | .arr l => .arr (l ++ parts)
      | other => other }

/-- Modify the last element of a list, if any. -/
def modifyLast (f : α → α) : List α → List α
  | [] => []
  | [a] => [f a]
  | a :: rest => a :: modifyLast f rest

/-- The loop state of lines 58-61: the `adapted_messages` array, the
`system_prompts` array, and the `previous_was_user` flag. -/
structure AdaptSt where
  adapted : List Msg
  system_prompts : List JsVal
  previous_was_user : Bool


/-- One iteration of the message loop (lines 62-88 of `complete`):
normalize the message in place; if its role is `user` and
`previous_was_user` is set, push its content parts onto the last adapted
entry; else if its role is `system`, push its content parts onto
`system_prompts`; else append it to `adapted_messages`, recording when it
was a `user` turn. The source never clears `previous_was_user`. -/
def adaptStep (st : AdaptSt) (m : Msg) : AdaptSt :=
  let m' := normalizeMessage m
  if m'.role = some "user" ∧ st.previous_was_user then
    { st with adapted := modifyLast (mergeContent (contentList m')) st.adapted }
  else if m'.role = some "system" then
    { st with system_prompts := st.system_prompts ++ contentList m' }
  else
    { st with
      adapted := st.adapted ++ [m']
      previous_was_user := st.previous_was_user || decide (m'.role = some "user") }

/-- Lines 57-88 of `complete`: the whole message-adaptation loop, from the
empty state. Returns `(adapted_messages, system_prompts)`. -/
def adapt_messages (messages : List Msg) : List Msg × List JsVal :=
  let st := messages.foldl adaptStep ⟨[], [], false⟩
  (st.adapted, st.system_prompts)

/-! ### Invariants of the message adaptation (claim C1) -/

/-- Relation between adjacent roles in `adapted_messages`: they are not
both `"user"`. -/
def notBothUser (r₁ r₂ : Option String) : Prop :=
  ¬(r₁ = some "user" ∧ r₂ = some "user")

/-- Stated from the spec's words: the content parts of all system-role
messages, in their original encounter order (after the in-place content
normalization each message undergoes). -/
def systemPartsSpec (messages : List Msg) : List JsVal :=
  (messages.map (fun m =>
    if (normalizeMessage m).role = some "system" then
      contentList (normalizeMessage m)
    else [])).flatten

theorem modifyLast_map (f : α → α) (g : α → β) (h : ∀ a, g (f a) = g a) :
    ∀ l : List α, (modifyLast f l).map g = l.map g
  | [] => rfl
  | [a] => by simp [modifyLast, h]
  | a :: b :: rest => by
      simpa [modifyLast] using modifyLast_map f g h (b :: rest)

theorem modifyLast_eq_nil (f : α → α) (l : List α) :
    modifyLast f l = [] ↔ l = [] := by
  cases l with
  | nil => simp [modifyLast]
  | cons a rest => cases rest <;> simp [modifyLast]

theorem mergeContent_role (parts : List JsVal) (m : Msg) :
    (mergeContent parts m).role = m.role := rfl

/-- The invariant maintained by `adaptStep` on the loop state. -/
structure AdaptInv (st : AdaptSt) : Prop where
  no_system : ∀ m ∈ st.adapted, m.role ≠ some "system"
  no_consec : List.Chain' notBothUser (st.adapted.map Msg.role)
  flag_false : st.previous_was_user = false →
    ∀ m ∈ st.adapted, m.role ≠ some "user"
  flag_true : st.previous_was_user = true → st.adapted ≠ []

theorem adaptStep_merge (st : AdaptSt) (m : Msg)
    (h : (normalizeMessage m).role = some "user" ∧ st.previous_was_user) :
    adaptStep st m = { st with
      adapted := modifyLast (mergeContent (contentList (normalizeMessage m)))
        st.adapted } := by
  unfold adaptStep
  rw [if_pos h]

theorem adaptStep_system (st : AdaptSt) (m : Msg)
    (hu : ¬((normalizeMessage m).role = some "user" ∧ st.previous_was_user))
    (hs : (normalizeMessage m).role = some "system") :
    adaptStep st m = { st with
      system_prompts := st.system_prompts ++ contentList (normalizeMessage m) } := by
  unfold adaptStep
  rw [if_neg hu, if_pos hs]

theorem adaptStep_push (st : AdaptSt) (m : Msg)
    (hu : ¬((normalizeMessage m).role = some "user" ∧ st.previous_was_user))
    (hs : ¬(normalizeMessage m).role = some "system") :
    adaptStep st m = { st with
      adapted := st.adapted ++ [normalizeMessage m]
      previous_was_user := st.previous_was_user ||
        decide ((normalizeMessage m).role = some "user") } := by
  unfold adaptStep
  rw [if_neg hu, if_neg hs]

theorem adaptStep_inv (st : AdaptSt) (m : Msg) (h : AdaptInv st) :
    AdaptInv (adaptStep st m) := by
  by_cases hu : (normalizeMessage m).role = some "user" ∧ st.previous_was_user
  · rw [adaptStep_merge st m hu]
    refine ⟨?_, ?_, ?_, ?_⟩
    · intro x hx
      have hmap : (modifyLast (mergeContent (contentList (normalizeMessage m)))
          st.adapted).map Msg.role = st.adapted.map Msg.role :=
        modifyLast_map _ _ (mergeContent_role _) _
      have hx' : x.role ∈ st.adapted.map Msg.role := by
        rw [← hmap]; exact List.mem_map_of_mem Msg.role hx
      rcases List.mem_map.mp hx' with ⟨y, hy, hyx⟩
      rw [← hyx]; exact h.no_system y hy
    · show List.Chain' notBothUser ((modifyLast _ st.adapted).map Msg.role)
      rw [modifyLast_map _ _ (mergeContent_role _)]
      exact h.no_consec
    · intro hf
      have hflag : st.previous_was_user = true := hu.2
      rw [show ({ st with
          adapted := modifyLast (mergeContent (contentList (normalizeMessage m)))
            st.adapted } : AdaptSt).previous_was_user = st.previous_was_user
        from rfl, hflag] at hf
      exact absurd hf (by simp)
    · intro _
      show modifyLast _ st.adapted ≠ []
      rw [Ne, modifyLast_eq_nil]
      exact h.flag_true hu.2
  · by_cases hs : (normalizeMessage m).role = some "system"
    · rw [adaptStep_system st m hu hs]
      exact ⟨h.no_system, h.no_consec, h.flag_false, h.flag_true⟩
    · rw [adaptStep_push st m hu hs]
      refine ⟨?_, ?_, ?_, ?_⟩
      · intro x hx
        rcases List.mem_append.mp hx with hx | hx
        · exact h.no_system x hx
        · rw [List.mem_singleton.mp hx]; exact hs
      · show List.Chain' notBothUser ((st.adapted ++ [normalizeMessage m]).map Msg.role)
        rw [List.map_append]
        refine List.chain'_append.mpr ⟨h.no_consec, List.chain'_singleton _, ?_⟩
        intro x hx y hy
        simp only [List.map_cons, List.map_nil, List.head?_cons,
          Option.mem_def, Option.some.injEq] at hy
        subst hy
        by_cases hmu : (normalizeMessage m).role = some "user"
        · have hflag : st.previous_was_user = false := by
            by_contra hb
            exact hu ⟨hmu, by simpa using Bool.of_not_eq_false hb⟩
          intro hpair
          have := List.mem_of_mem_getLast? hx
          rcases List.mem_map.mp this with ⟨y0, hy0, hy0x⟩
          exact h.flag_false hflag y0 hy0 (hy0x.trans hpair.1)
        · intro hpair; exact hmu hpair.2
      · intro hf
        have hf' : st.previous_was_user = false ∧
            ¬(normalizeMessage m).role = some "user" := by
          have : (st.previous_was_user ||
              decide ((normalizeMessage m).role = some "user")) = false := hf
          simpa using this
        intro x hx
        rcases List.mem_append.mp hx with hx | hx
        · exact h.flag_false hf'.1 x hx
        · rw [List.mem_singleton.mp hx]; exact hf'.2
      · intro _; simp

theorem foldl_adaptStep_inv (ms : List Msg) (st : AdaptSt) (h : AdaptInv st) :
    AdaptInv (ms.foldl adaptStep st) := by
  induction ms generalizing st with
  | nil => exact h
  | cons m rest ih => exact ih _ (adaptStep_inv st m h)

theorem adaptStep_sys (st : AdaptSt) (m : Msg) :
    (adaptStep st m).system_prompts = st.system_prompts ++
      (if (normalizeMessage m).role = some "system" then
        contentList (normalizeMessage m)
      else []) := by
  unfold adaptStep
  by_cases hu : (normalizeMessage m).role = some "user" ∧ st.previous_was_user
  · have hs : ¬ (normalizeMessage m).role = some "system" := by
      rw [hu.1]; simp
    simp [hu, hs]
  · by_cases hs : (normalizeMessage m).role = some "system"
    · simp [hu, hs]
    · simp [hu, hs]

theorem foldl_adaptStep_sys (ms : List Msg) (st : AdaptSt) :
    (ms.foldl adaptStep st).system_prompts =
      st.system_prompts ++ systemPartsSpec ms := by
  induction ms generalizing st with
  | nil => simp [systemPartsSpec]
  | cons m rest ih =>
      simp only [List.foldl_cons]
      rw [ih, adaptStep_sys]
      simp only [systemPartsSpec, List.map_cons, List.flatten_cons,
        List.append_assoc]

/-! ### The loop's in-place mutation of the caller's messages (claim C3)

The JS loop mutates each caller-supplied message object in place
(`message.content = ...` at lines 64-70, `message.role = 'user'` at
line 72) and, when merging, pushes parts onto the content array of an
object already placed into `adapted_messages` (line 75). To observe
this, the loop is re-embedded with the object identities made explicit:
`store` carries the current field values of every caller message object,
and `adapted_messages` is a list of indices into `store`. -/

/-- Default message used with `List.getD` on the store. -/
def dMsg : Msg := ⟨none, .null⟩

/-- Modify the element at an index of a list, if present. -/
def modifyAt (f : α → α) : Nat → List α → List α
  | _, [] => []
  | 0, a :: rest => f a :: rest
  | Nat.succ n, a :: rest => a :: modifyAt f n rest

theorem modifyAt_length (f : α → α) : ∀ (j : Nat) (l : List α),
    (modifyAt f j l).length = l.length
  | j, [] => by cases j <;> rfl
  | 0, _ :: _ => rfl
  | Nat.succ n, _ :: rest => by simp [modifyAt, modifyAt_length f n rest]

theorem modifyAt_getD_ne (f : α → α) (d : α) :
    ∀ (j i : Nat) (l : List α), i ≠ j →
      (modifyAt f j l).getD i d = l.getD i d
  | _, _, [], _ => by simp [modifyAt]
  | 0, 0, _ :: _, hne => absurd rfl hne
  | 0, Nat.succ _, _ :: _, _ => by simp [modifyAt]
  | Nat.succ _, 0, _ :: _, _ => by simp [modifyAt]
  | Nat.succ n, Nat.succ i, a :: rest, hne => by
      simp only [modifyAt, List.getD_cons_succ]
      exact modifyAt_getD_ne f d n i rest (fun h => hne (by rw [h]))

theorem modifyAt_getD_self (f : α → α) (d : α) :
    ∀ (j : Nat) (l : List α), j < l.length →
      (modifyAt f j l).getD j d = f (l.getD j d)
  | _, [], h => by simp at h
  | 0, a :: rest, _ => rfl
  | Nat.succ n, a :: rest, h => by
      simp only [modifyAt, List.getD_cons_succ]
      exact modifyAt_getD_self f d n rest (by simpa using h)

theorem modifyAt_forall₂ {R : α → β → Prop} (f : α → α)
    (hf : ∀ a b, R a b → R (f a) b) :
    ∀ (j : Nat) {l : List α} {l' : List β},
      List.Forall₂ R l l' → List.Forall₂ R (modifyAt f j l) l' := by
  intro j l l' h
  induction h generalizing j with
  | nil => cases j <;> exact List.Forall₂.nil
  | cons hab htl ih =>
      cases j with
      | zero => exact List.Forall₂.cons (hf _ _ hab) htl
      | succ n => exact List.Forall₂.cons hab (ih n)

theorem modifyLast_append_singleton (f : α → α) (l : List α) (x : α) :
    modifyLast f (l ++ [x]) = l ++ [f x] := by
  induction l with
  | nil => rfl
  | cons a rest ih =>
      cases rest with
      | nil => rfl
      | cons b rest' => simpa [modifyLast] using ih

/-- The loop state with the caller's message objects tracked explicitly. -/
structure AdaptObjSt where
  store : List Msg
  adaptedIdx : List Nat
  system_prompts : List JsVal
  previous_was_user : Bool

/-- One iteration of the message loop, object-level view: the current
message object is first mutated in place to `normalizeMessage m`
(lines 63-72); a merge (line 75) then mutates the object aliased by the
last `adapted_messages` entry. -/
def adaptObjStep (st : AdaptObjSt) (m : Msg) : AdaptObjSt :=
  let m' := normalizeMessage m
  let store := st.store ++ [m']
  if m'.role = some "user" ∧ st.previous_was_user then
    { st with store := match st.adaptedIdx.getLast? with
        | some j => modifyAt (mergeContent (contentList m')) j store
        | none => store }
  else if m'.role = some "system" then
    { st with
      store := store
      system_prompts := st.system_prompts ++ contentList m' }
  else
    { st with
      store := store
      adaptedIdx := st.adaptedIdx ++ [st.store.length]
      previous_was_user := st.previous_was_user || decide (m'.role = some "user") }

/-- The object-level loop over a whole message list. -/
def adaptObj (messages : List Msg) : AdaptObjSt :=
  messages.foldl adaptObjStep ⟨[], [], [], false⟩

/-- The field values of the caller's message objects after `complete`'s
message loop has run over them. -/
def messagesAfterAdapt (messages : List Msg) : List Msg :=
  (adaptObj messages).store

/-- Relation between a caller message object's final state and its
original value: the role was defaulted in place, and the content was
wrapped in place and possibly extended by merged-in parts. -/
def MutatedFrom (s p : Msg) : Prop :=
  s.role = (normalizeMessage p).role
  ∧ ∃ extra, s.content = .arr (contentList (normalizeMessage p) ++ extra)

/-- Simulation invariant between the object-level state, the processed
prefix, and the value-level state. -/
structure ObjSim (ps : List Msg) (stO : AdaptObjSt) (st : AdaptSt) : Prop where
  adapted_eq : stO.adaptedIdx.map (fun j => stO.store.getD j dMsg) = st.adapted
  sys_eq : stO.system_prompts = st.system_prompts
  flag_eq : stO.previous_was_user = st.previous_was_user
  bounds : ∀ j ∈ stO.adaptedIdx, j < stO.store.length
  mono : List.Pairwise (· < ·) stO.adaptedIdx
  facts : List.Forall₂ MutatedFrom stO.store ps

theorem normalizeMessage_content (m : Msg) :
    (normalizeMessage m).content = .arr (contentList (normalizeMessage m)) := by
  obtain ⟨r, c⟩ := m
  cases c <;> rfl

theorem mutatedFrom_normalize (m : Msg) :
    MutatedFrom (normalizeMessage m) m :=
  ⟨rfl, [], by rw [List.append_nil]; exact normalizeMessage_content m⟩

theorem mutatedFrom_merge (parts : List JsVal) (s p : Msg)
    (h : MutatedFrom s p) : MutatedFrom (mergeContent parts s) p := by
  obtain ⟨hrole, extra, hcontent⟩ := h
  refine ⟨hrole, extra ++ parts, ?_⟩
  show (match s.content with
    | .arr l => JsVal.arr (l ++ parts)
    | other => other) = _
  rw [hcontent]
  show JsVal.arr (contentList (normalizeMessage p) ++ extra ++ parts) = _
  rw [List.append_assoc]

theorem adaptObjStep_merge (st : AdaptObjSt) (m : Msg)
    (h : (normalizeMessage m).role = some "user" ∧ st.previous_was_user) :
    adaptObjStep st m = { st with
      store := match st.adaptedIdx.getLast? with
        | some j => modifyAt (mergeContent (contentList (normalizeMessage m))) j
            (st.store ++ [normalizeMessage m])
        | none => st.store ++ [normalizeMessage m] } := by
  unfold adaptObjStep
  rw [if_pos h]

theorem adaptObjStep_system (st : AdaptObjSt) (m : Msg)
    (hu : ¬((normalizeMessage m).role = some "user" ∧ st.previous_was_user))
    (hs : (normalizeMessage m).role = some "system") :
    adaptObjStep st m = { st with
      store := st.store ++ [normalizeMessage m]
      system_prompts := st.system_prompts ++ contentList (normalizeMessage m) } := by
  unfold adaptObjStep
  rw [if_neg hu, if_pos hs]

theorem adaptObjStep_push (st : AdaptObjSt) (m : Msg)
    (hu : ¬((normalizeMessage m).role = some "user" ∧ st.previous_was_user))
    (hs : ¬(normalizeMessage m).role = some "system") :
    adaptObjStep st m = { st with
      store := st.store ++ [normalizeMessage m]
      adaptedIdx := st.adaptedIdx ++ [st.store.length]
      previous_was_user := st.previous_was_user ||
        decide ((normalizeMessage m).role = some "user") } := by
  unfold adaptObjStep
  rw [if_neg hu, if_neg hs]

theorem getD_append_of_lt (l l' : List α) (d : α) (i : Nat) (h : i < l.length) :
    (l ++ l').getD i d = l.getD i d := by
  rw [List.getD_eq_getElem?_getD, List.getD_eq_getElem?_getD,
    List.getElem?_append, if_pos h]

theorem getD_append_length (l : List α) (x : α) (d : α) :
    (l ++ [x]).getD l.length d = x := by
  rw [List.getD_eq_getElem?_getD, List.getElem?_append_right (Nat.le_refl _)]
  simp

theorem objSim_step (ps : List Msg) (stO : AdaptObjSt) (st : AdaptSt)
    (m : Msg) (h : ObjSim ps stO st) :
    ObjSim (ps ++ [m]) (adaptObjStep stO m) (adaptStep st m) := by
  have hfacts' : List.Forall₂ MutatedFrom (stO.store ++ [normalizeMessage m])
      (ps ++ [m]) :=
    List.rel_append h.facts
      (List.Forall₂.cons (mutatedFrom_normalize m) List.Forall₂.nil)
  by_cases hc : (normalizeMessage m).role = some "user" ∧ st.previous_was_user
  · have hcO : (normalizeMessage m).role = some "user" ∧ stO.previous_was_user := by
      rw [h.flag_eq]; exact hc
    rw [adaptObjStep_merge stO m hcO, adaptStep_merge st m hc]
    cases hlast : stO.adaptedIdx.getLast? with
    | none =>
        have hidx : stO.adaptedIdx = [] := List.getLast?_eq_none_iff.mp hlast
        have hadapted : st.adapted = [] := by
          rw [← h.adapted_eq, hidx]; rfl
        refine ⟨?_, h.sys_eq, h.flag_eq, ?_, ?_, ?_⟩
        · simp only [hidx, hadapted, List.map_nil]; rfl
        · intro j hj
          rw [hidx] at hj
          exact absurd hj (List.not_mem_nil j)
        · rw [hidx]; exact List.Pairwise.nil
        · exact hfacts'
    | some j =>
        obtain ⟨is₀, his⟩ : ∃ is₀, stO.adaptedIdx = is₀ ++ [j] :=
          ⟨stO.adaptedIdx.dropLast,
            (List.dropLast_append_getLast? j hlast).symm⟩
        have hjlen : j < stO.store.length :=
          h.bounds j (by rw [his]; exact List.mem_append_right _ (List.Mem.head _))
        refine ⟨?_, h.sys_eq, h.flag_eq, ?_, ?_, ?_⟩
        · show (stO.adaptedIdx.map fun j' =>
              (modifyAt (mergeContent (contentList (normalizeMessage m))) j
                (stO.store ++ [normalizeMessage m])).getD j' dMsg) = _
          rw [← h.adapted_eq, his, List.map_append, List.map_append,
            List.map_singleton, List.map_singleton, modifyLast_append_singleton]
          congr 1
          · refine List.map_congr_left (fun i hi => ?_)
            have hij : i < j := by
              have := h.mono
              rw [his] at this
              exact (List.pairwise_append.mp this).2.2 i hi j (List.Mem.head _)
            have hilt : i < stO.store.length := Nat.lt_trans hij hjlen
            rw [modifyAt_getD_ne _ _ _ _ _ (Nat.ne_of_lt hij),
              getD_append_of_lt _ _ _ _ hilt]
          · rw [modifyAt_getD_self _ _ _ _
                (by rw [List.length_append]; exact Nat.lt_succ_of_lt hjlen),
              getD_append_of_lt _ _ _ _ hjlen]
        · intro j' hj'
          show j' < (modifyAt _ j (stO.store ++ [normalizeMessage m])).length
          rw [modifyAt_length, List.length_append]
          exact Nat.lt_succ_of_lt (h.bounds j' hj')
        · exact h.mono
        · exact modifyAt_forall₂ _ (mutatedFrom_merge _) j hfacts'
  · have hcO : ¬((normalizeMessage m).role = some "user" ∧
        stO.previous_was_user) := by
      rw [h.flag_eq]; exact hc
    have hmap : (stO.adaptedIdx.map fun j =>
        (stO.store ++ [normalizeMessage m]).getD j dMsg) =
        stO.adaptedIdx.map fun j => stO.store.getD j dMsg :=
      List.map_congr_left (fun j hj => getD_append_of_lt _ _ _ _ (h.bounds j hj))
    by_cases hs : (normalizeMessage m).role = some "system"
    · rw [adaptObjStep_system stO m hcO hs, adaptStep_system st m hc hs]
      refine ⟨?_, ?_, h.flag_eq, ?_, h.mono, hfacts'⟩
      · show (stO.adaptedIdx.map fun j =>
            (stO.store ++ [normalizeMessage m]).getD j dMsg) = st.adapted
        rw [hmap]; exact h.adapted_eq
      · show stO.system_prompts ++ contentList (normalizeMessage m) =
          st.system_prompts ++ contentList (normalizeMessage m)
        rw [h.sys_eq]
      · intro j hj
        show j < (stO.store ++ [normalizeMessage m]).length
        rw [List.length_append]
        exact Nat.lt_succ_of_lt (h.bounds j hj)
    · rw [adaptObjStep_push stO m hcO hs, adaptStep_push st m hc hs]
      refine ⟨?_, h.sys_eq, ?_, ?_, ?_, hfacts'⟩
      · show ((stO.adaptedIdx ++ [stO.store.length]).map fun j =>
            (stO.store ++ [normalizeMessage m]).getD j dMsg) =
          st.adapted ++ [normalizeMessage m]
        rw [List.map_append, hmap, h.adapted_eq, List.map_singleton,
          getD_append_length]
      · show (stO.previous_was_user ||
            decide ((normalizeMessage m).role = some "user")) =
          (st.previous_was_user ||
            decide ((normalizeMessage m).role = some "user"))
        rw [h.flag_eq]
      · intro j hj
        show j < (stO.store ++ [normalizeMessage m]).length
        rw [List.length_append, List.length_singleton]
        rcases List.mem_append.mp hj with hj | hj
        · exact Nat.lt_succ_of_lt (h.bounds j hj)
        · rw [List.mem_singleton.mp hj]
          exact Nat.lt_succ_self _
      · refine List.pairwise_append.mpr ⟨h.mono, List.pairwise_singleton _ _, ?_⟩
        intro a ha b hb
        rw [List.mem_singleton.mp hb]
        exact h.bounds a ha

theorem objSim_foldl (ms : List Msg) :
    ∀ (ps : List Msg) (stO : AdaptObjSt) (st : AdaptSt), ObjSim ps stO st →
      ObjSim (ps ++ ms) (ms.foldl adaptObjStep stO) (ms.foldl adaptStep st) := by
  induction ms with
  | nil => intro ps stO st h; simpa using h
  | cons m rest ih =>
      intro ps stO st h
      have h1 := objSim_step ps stO st m h
      have h2 := ih (ps ++ [m]) _ _ h1
      simpa using h2

/-- C3 is refuted by the code (see `c3_not_pure`); what does hold: the
loop's only effects are the two outputs plus the in-place mutation of the
caller's message objects — each object's role is defaulted in place, its
content is wrapped in place and possibly extended by merged-in parts
(`MutatedFrom`), and the `adapted_messages` entries (read off the mutated
store through their aliases) and `system_prompts` are exactly the values
computed by `adapt_messages`. -/
theorem c3_mutation_characterized (messages : List Msg) :
    List.Forall₂ MutatedFrom (messagesAfterAdapt messages) messages
    ∧ ((adaptObj messages).adaptedIdx.map
        (fun j => (adaptObj messages).store.getD j dMsg)) =
      (adapt_messages messages).1
    ∧ (adaptObj messages).system_prompts = (adapt_messages messages).2 := by
  have h0 : ObjSim [] ⟨[], [], [], false⟩ ⟨[], [], false⟩ := by
    refine ⟨rfl, rfl, rfl, ?_, List.Pairwise.nil, List.Forall₂.nil⟩
    intro j hj
    exact absurd hj (List.not_mem_nil j)
  have h := objSim_foldl messages [] ⟨[], [], [], false⟩ ⟨[], [], false⟩ h0
  rw [List.nil_append] at h
  exact ⟨h.facts, h.adapted_eq, h.sys_eq⟩

/-- C3 as stated is false: the caller-supplied message objects are not
left unchanged. For the single message `{ content: "hi" }` the loop
rewrites its `content` to a one-element text-part array and its missing
`role` to `"user"`. -/
theorem c3_not_pure :
    messagesAfterAdapt [⟨none, .str "hi"⟩] ≠ [⟨none, .str "hi"⟩] := by
  intro h
  have heval : messagesAfterAdapt [⟨none, JsVal.str "hi"⟩] =
      [⟨some "user", JsVal.arr [textPart "hi"]⟩] := rfl
  rw [heval] at h
  have h2 := congrArg (fun l => (List.head? l).map Msg.role) h
  simp at h2

/-! ### Token budget enforcement (claim C4)

Lines 90-103 of `complete`: the estimate is
`(JSON.stringify(adapted_messages) + JSON.stringify(system_prompts)).length / 4`,
with exact (floating point, here rational) division, compared strictly
against `MAX_CLAUDE_INPUT_TOKENS` (10000). -/

/-- Lower-case hex digit, for `\u00XX` escapes. -/
def hexDigit (n : Nat) : String :=
  String.singleton (if n < 10 then Char.ofNat (48 + n) else Char.ofNat (87 + n))

/-- How `JSON.stringify` escapes one character inside a string literal. -/
def escapeChar (c : Char) : String :=
  if c = '"' then "\\\""
  else if c = '\\' then "\\\\"
  else if c = '\n' then "\\n"
  else if c = '\r' then "\\r"
  else if c = '\t' then "\\t"
  else if c = Char.ofNat 8 then "\\b"
  else if c = Char.ofNat 12 then "\\f"
  else if c.toNat < 32 then
    "\\u00" ++ hexDigit (c.toNat / 16) ++ hexDigit (c.toNat % 16)
  else String.singleton c

/-- How `JSON.stringify` renders a string value. -/
def jsonString (s : String) : String :=
  "\"" ++ String.join (s.toList.map escapeChar) ++ "\""

/-- How `JSON.stringify` renders a JSON value (object fields in insertion order). -/
def stringify : JsVal → String
  | .null => "null"
  | .bool b => if b then "true" else "false"
  | .num n => toString n
  | .str s => jsonString s
  | .arr l => "[" ++
      String.intercalate "," (l.attach.map (fun x => stringify x.1)) ++ "]"
  | .obj l => "\x7b" ++
      String.intercalate ","
        (l.attach.map (fun x => jsonString x.1.1 ++ ":" ++ stringify x.1.2)) ++
      "\x7d"
decreasing_by
  · simp_wf
    have := List.sizeOf_lt_of_mem x.2
    omega
  · simp_wf
    obtain ⟨⟨a, b⟩, hx⟩ := x
    have h1 := List.sizeOf_lt_of_mem hx
    simp at h1 ⊢
    omega

/-- The JSON value of a message object: its `role` and `content` fields
(in that insertion order; `role` may be absent). -/
def msgToJs (m : Msg) : JsVal :=
  .obj ((match m.role with
    | some r => [("role", JsVal.str r)]
    | none => []) ++ [("content", m.content)])

/-- The constant `MAX_CLAUDE_INPUT_TOKENS` (line 18 of the source). -/
def MAX_CLAUDE_INPUT_TOKENS : ℚ := 10000

/-- Lines 90-96: the token-count heuristic — length of the serialized
`adapted_messages` concatenated with the serialized `system_prompts`,
divided by 4 (JS `/` is exact float division here, modelled as exact
rational division: a fractional estimate such as `10000.25` must compare
greater than the limit, as it does in JS). -/
def token_count (adapted : List Msg) (system_prompts : List JsVal) : ℚ :=
  ((stringify (.arr (adapted.map msgToJs)) ++
      stringify (.arr system_prompts)).length : ℚ) / 4

/-- The payload carried by the `max_tokens_exceeded` APIError
(lines 99-102 of the source). -/
structure TokenBudgetExceeded where
  input_tokens : ℚ
  max_tokens : ℚ

/-- Lines 98-103: fail with the estimate and the limit iff the estimate
strictly exceeds the limit; otherwise pass (returning the estimate). -/
def estimate_and_check (adapted : List Msg) (system_prompts : List JsVal) :
    Except TokenBudgetExceeded ℚ :=
  let tc := token_count adapted system_prompts
  if tc > MAX_CLAUDE_INPUT_TOKENS then
    .error ⟨tc, MAX_CLAUDE_INPUT_TOKENS⟩
  else .ok tc

/-- The `complete` handler up to and including the provider dispatch,
abstracted over the provider call (`anthropic.messages.create` /
`anthropic.messages.stream`): adapt the messages, check the budget, and
only in the success case invoke the provider. -/
def complete (provider : List Msg → List JsVal → α) (messages : List Msg) :
    Except TokenBudgetExceeded α :=
  let adapted := (adapt_messages messages).1
  let system_prompts := (adapt_messages messages).2
  match estimate_and_check adapted system_prompts with
  | .error e => .error e
  | .ok _ => .ok (provider adapted system_prompts)

/-- C4: `complete` fails with `TokenBudgetExceeded` carrying the estimate
and the limit 10000 iff the estimate strictly exceeds the limit; an
estimate equal to the limit passes; and whether (and how) the check fails
is independent of the provider, i.e. the failure is raised before any
provider call is issued. -/
theorem c4_token_budget (adapted : List Msg) (system_prompts : List JsVal)
    (messages : List Msg) (p₁ p₂ : List Msg → List JsVal → JsVal)
    (e : TokenBudgetExceeded) :
    (estimate_and_check adapted system_prompts =
        .error ⟨token_count adapted system_prompts, MAX_CLAUDE_INPUT_TOKENS⟩
      ↔ token_count adapted system_prompts > MAX_CLAUDE_INPUT_TOKENS)
    ∧ ((estimate_and_check adapted system_prompts).isOk = true
      ↔ token_count adapted system_prompts ≤ MAX_CLAUDE_INPUT_TOKENS)
    ∧ (complete p₁ messages = .error e ↔ complete p₂ messages = .error e) := by
  refine ⟨?_, ?_, ?_⟩
  · simp only [estimate_and_check]
    split_ifs with h
    · simp [h]
    · simp [h]
  · simp only [estimate_and_check]
    split_ifs with h
    · simp [Except.isOk, Except.toBool, not_le.mpr h]
    · simp [Except.isOk, Except.toBool, not_lt.mp h]
  · simp only [complete]
    cases hE : estimate_and_check (adapt_messages messages).1
        (adapt_messages messages).2 with
    | error e' => simp
    | ok tc => simp

/-! ### Tool-format normalization (`FunctionCalling.js`, claims C5-C7) -/

/-- A function descriptor object, as `normalize_function` reads it: the
four fields it consults, each possibly absent, with JSON values so that
JS truthiness is modelled faithfully. -/
structure FnDesc where
  name : Option JsVal
  description : Option JsVal
  parameters : Option JsVal
  input_schema : Option JsVal

/-- A tool object as `normalize_tools_object` reads it: it may carry the
OpenAI-convention fields (`type`/`function`) and/or the bare-descriptor
fields. -/
structure ToolObj where
  type : Option JsVal
  function : Option FnDesc
  name : Option JsVal
  description : Option JsVal
  parameters : Option JsVal
  input_schema : Option JsVal

/-- Viewing a tool object itself as a bare function descriptor. -/
def ToolObj.asFn (t : ToolObj) : FnDesc :=
  ⟨t.name, t.description, t.parameters, t.input_schema⟩

/-- JS `a || b` on two possibly-absent field reads. -/
def jsOr (a b : Option JsVal) : Option JsVal :=
  match a with
  | some v => if jsTruthy v then some v else b
  | none => b

/-- Is a possibly-absent value nullish (`undefined` or `null`)? This is
what JS `??` tests. -/
def isNullish : Option JsVal → Bool
  | none => true
  | some .null => true
  | some _ => false

/-- The default schema `{ type: 'object' }` (lines 27-29 of
`FunctionCalling.js`). -/
def defaultSchema : JsVal := .obj [("type", .str "object")]

/-- JS `x === 'function'` on a possibly-absent field. -/
def isFunctionType : Option JsVal → Bool
  | some (.str s) => s == "function"
  | _ => false

/-- JS `x ?? { type: 'object' }` (lines 27-29): the default replaces only
a nullish value. -/
def nullishDefault (p : Option JsVal) : JsVal :=
  match p with
  | some .null => defaultSchema
  | some v => v
  | none => defaultSchema

/-- Lines 21-40 (`normalize_function`): `parameters` is
`(fn.parameters || fn.input_schema) ?? { type: 'object' }`; `name` and
`description` are copied only when truthy. -/
def normalize_function (fn : FnDesc) : FnDesc :=
  { parameters := some (nullishDefault (jsOr fn.parameters fn.input_schema))
    name := if truthyOpt fn.name then fn.name else none
    description := if truthyOpt fn.description then fn.description else none
    input_schema := none }

/-- The canonical output shape `{ type: 'function', function: fn }`
built in all three dispatch cases (lines 42-57). -/
def canonTool (fn : FnDesc) : ToolObj :=
  { type := some (.str "function")
    function := some fn
    name := none
    description := none
    parameters := none
    input_schema := none }

/-- Lines 42-57: the per-tool dispatch.  If `tool.input_schema` is
truthy, the tool itself is the descriptor; else if
`tool.type === 'function'`, the nested `tool.function` object is (in JS,
reading `fn.parameters` off a missing `tool.function` throws a
`TypeError`, modelled as `Except.error`); else the tool itself is. -/
def normalize_tool (t : ToolObj) : Except Unit ToolObj :=
  if truthyOpt t.input_schema then
    .ok (canonTool (normalize_function t.asFn))
  else if isFunctionType t.type then
    match t.function with
    | some fn => .ok (canonTool (normalize_function fn))
    | none => .error ()
  else
    .ok (canonTool (normalize_function t.asFn))

/-- Lines 16-62 (`normalize_tools_object`): every entry of the tools
array is replaced by its normalized form, and the array is returned. -/
def normalize_tools_object : List ToolObj → Except Unit (List ToolObj)
  | [] => .ok []
  | t :: rest =>
    match normalize_tool t with
    | .error e => .error e
    | .ok t' =>
      match normalize_tools_object rest with
      | .error e => .error e
      | .ok rest' => .ok (t' :: rest')

/-- Lines 71-73 (`make_openai_tools`): the canonical form already is the
OpenAI shape. -/
def make_openai_tools (tools : List ToolObj) : List ToolObj := tools

/-- An entry of the Claude-shaped tools array (lines 86-90): the object
carries `name`, `description` and `input_schema` keys (a key's value may
be `undefined` when the canonical entry lacked it). -/
structure ClaudeTool where
  name : Option JsVal
  description : Option JsVal
  input_schema : Option JsVal

/-- One entry of `make_claude_tools`'s map (lines 84-91): destructure
`tool.function` (a JS `TypeError`, modelled as `Except.error`, when it is
nullish) and rename `parameters` to `input_schema`. -/
def claude_tool_of (t : ToolObj) : Except Unit ClaudeTool :=
  match t.function with
  | some fn => .ok ⟨fn.name, fn.description, fn.parameters⟩
  | none => .error ()

def claude_tools_list : List ToolObj → Except Unit (List ClaudeTool)
  | [] => .ok []
  | t :: rest =>
    match claude_tool_of t with
    | .error e => .error e
    | .ok c =>
      match claude_tools_list rest with
      | .error e => .error e
      | .ok cs => .ok (c :: cs)

/-- Lines 82-92 (`make_claude_tools`): `undefined` for a falsy `tools`
value (modelled as `none`), otherwise the entrywise conversion. -/
def make_claude_tools (tools : Option (List ToolObj)) :
    Except Unit (Option (List ClaudeTool)) :=
  match tools with
  | none => .ok none
  | some ts => (claude_tools_list ts).map some

/-- A possibly-absent field is well-formed when, if present, its value is
truthy.  The spec's tool data model only populates these fields with
schema objects and (non-empty) strings, which are all truthy in JS. -/
def wfField (o : Option JsVal) : Bool :=
  match o with
  | some v => jsTruthy v
  | none => true

/-- Well-formed function descriptor: every present field is truthy. -/
def FnDesc.wfb (fn : FnDesc) : Bool :=
  wfField fn.name && wfField fn.description &&
    wfField fn.parameters && wfField fn.input_schema

/-- Well-formed tool: its own descriptor fields are well-formed, a nested
`function` descriptor is well-formed, and `function` is present whenever
the dispatch would select it (`type === 'function'` and no truthy
`input_schema`). -/
def ToolObj.wfb (t : ToolObj) : Bool :=
  t.asFn.wfb &&
    (match t.function with
      | some fn => fn.wfb
      | none => !(isFunctionType t.type) || truthyOpt t.input_schema)

/-- Stated from the spec's words: the source function descriptor that the
three-way dispatch selects for a tool — case (a): the tool itself when it
has a (truthy) `input_schema`; case (b): the nested `function` object
when `type === 'function'`; case (c): the tool itself. -/
def selectFn (t : ToolObj) : Option FnDesc :=
  if truthyOpt t.input_schema then some t.asFn
  else if isFunctionType t.type then t.function
  else some t.asFn

/-- Stated from the spec's words: the canonical function object —
`parameters` from the descriptor's `parameters` field if present, else
its `input_schema` field, else the default `{ type: 'object' }`;
`name`/`description` copied through exactly when present. -/
def specNormalFn (fn : FnDesc) : FnDesc :=
  { parameters := some (fn.parameters.getD (fn.input_schema.getD defaultSchema))
    name := fn.name
    description := fn.description
    input_schema := none }

theorem truthy_filter_eq (o : Option JsVal) (h : wfField o = true) :
    (if truthyOpt o then o else none) = o := by
  cases o with
  | none => simp [truthyOpt]
  | some v =>
      have hv : jsTruthy v = true := by simpa [wfField] using h
      simp [truthyOpt, hv]

theorem nullishDefault_of_truthy (v : JsVal) (h : jsTruthy v = true) :
    nullishDefault (some v) = v := by
  cases v <;> first
    | rfl
    | exact absurd h (by simp [jsTruthy])

theorem params_chain_eq (p i : Option JsVal) (hp : wfField p = true)
    (hi : wfField i = true) :
    nullishDefault (jsOr p i) = p.getD (i.getD defaultSchema) := by
  cases p with
  | some v =>
      have hv : jsTruthy v = true := by simpa [wfField] using hp
      simp [jsOr, hv, nullishDefault_of_truthy v hv]
  | none =>
      cases i with
      | some w =>
          have hw : jsTruthy w = true := by simpa [wfField] using hi
          simp [jsOr, nullishDefault_of_truthy w hw]
      | none => simp [jsOr, nullishDefault]

/-- On a well-formed descriptor, the code's `||` / `??` / truthiness
plumbing computes exactly the spec's present-else-default chain. -/
theorem normalize_function_wf (fn : FnDesc) (h : fn.wfb = true) :
    normalize_function fn = specNormalFn fn := by
  obtain ⟨n, d, p, i⟩ := fn
  simp only [FnDesc.wfb, Bool.and_eq_true] at h
  obtain ⟨⟨⟨hn, hd⟩, hp⟩, hi⟩ := h
  unfold normalize_function specNormalFn
  simp only [FnDesc.mk.injEq]
  exact ⟨truthy_filter_eq n hn, truthy_filter_eq d hd,
    congrArg some (params_chain_eq p i hp hi), trivial⟩

/-- On a well-formed tool, the dispatch selects a well-formed descriptor
and produces the canonical shape described by the spec. -/
theorem normalize_tool_wf (t : ToolObj) (h : t.wfb = true) :
    ∃ fn, selectFn t = some fn ∧ fn.wfb = true ∧
      normalize_tool t = .ok (canonTool (specNormalFn fn)) := by
  have hasfn : t.asFn.wfb = true := by
    simp only [ToolObj.wfb, Bool.and_eq_true] at h
    exact h.1
  by_cases hin : truthyOpt t.input_schema = true
  · refine ⟨t.asFn, by simp [selectFn, hin], hasfn, ?_⟩
    simp [normalize_tool, hin, normalize_function_wf _ hasfn]
  · by_cases hty : isFunctionType t.type = true
    · cases hfn : t.function with
      | some fn =>
          have hw : fn.wfb = true := by
            simp only [ToolObj.wfb, Bool.and_eq_true] at h
            have h2 := h.2
            rw [hfn] at h2
            exact h2
          refine ⟨fn, by simp [selectFn, hin, hty, hfn], hw, ?_⟩
          simp [normalize_tool, hin, hty, hfn, normalize_function_wf _ hw]
      | none =>
          exfalso
          simp only [ToolObj.wfb, Bool.and_eq_true] at h
          have h2 := h.2
          rw [hfn] at h2
          simp [hty, hin] at h2
    · refine ⟨t.asFn, by simp [selectFn, hin, hty], hasfn, ?_⟩
      simp [normalize_tool, hin, hty, normalize_function_wf _ hasfn]

/-- The list-level normalization on well-formed tools: it succeeds and
each output entry is the canonical shape of the selected descriptor. -/
theorem normalize_tools_wf (tools : List ToolObj)
    (h : ∀ t ∈ tools, t.wfb = true) :
    ∃ out, normalize_tools_object tools = .ok out ∧
      List.Forall₂ (fun o t => ∃ fn, selectFn t = some fn ∧ fn.wfb = true ∧
        o = canonTool (specNormalFn fn)) out tools := by
  induction tools with
  | nil => exact ⟨[], rfl, List.Forall₂.nil⟩
  | cons t rest ih =>
      obtain ⟨fn, hsel, hwf, hnorm⟩ := normalize_tool_wf t (h t (List.Mem.head _))
      obtain ⟨out, hout, hfa⟩ := ih (fun x hx => h x (List.Mem.tail _ hx))
      refine ⟨canonTool (specNormalFn fn) :: out, ?_,
        List.Forall₂.cons ⟨fn, hsel, hwf, rfl⟩ hfa⟩
      simp [normalize_tools_object, hnorm, hout]

theorem specNormalFn_params_truthy (fn : FnDesc) (h : fn.wfb = true) :
    truthyOpt (specNormalFn fn).parameters = true := by
  obtain ⟨n, d, p, i⟩ := fn
  simp only [FnDesc.wfb, Bool.and_eq_true] at h
  obtain ⟨⟨⟨hn, hd⟩, hp⟩, hi⟩ := h
  cases p with
  | some v => simpa [specNormalFn, truthyOpt, wfField] using hp
  | none =>
      cases i with
      | some w => simpa [specNormalFn, truthyOpt, wfField] using hi
      | none => rfl

theorem specNormalFn_wfb (fn : FnDesc) (h : fn.wfb = true) :
    (specNormalFn fn).wfb = true := by
  have hp := specNormalFn_params_truthy fn h
  obtain ⟨n, d, p, i⟩ := fn
  simp only [FnDesc.wfb, Bool.and_eq_true] at h ⊢
  refine ⟨⟨⟨h.1.1.1, h.1.1.2⟩, ?_⟩, rfl⟩
  simpa [truthyOpt, wfField, specNormalFn] using hp

theorem specNormalFn_fixed (fn : FnDesc) (v : JsVal)
    (hp : fn.parameters = some v) (hi : fn.input_schema = none) :
    specNormalFn fn = fn := by
  obtain ⟨n, d, p, i⟩ := fn
  cases hp
  cases hi
  rfl

/-- A canonical, well-formed entry re-normalizes to itself. -/
theorem normalize_tool_canon (fn : FnDesc) (h : fn.wfb = true) :
    normalize_tool (canonTool (specNormalFn fn)) =
      .ok (canonTool (specNormalFn fn)) := by
  have hwf := specNormalFn_wfb fn h
  have : normalize_function (specNormalFn fn) = specNormalFn fn := by
    rw [normalize_function_wf _ hwf]
    exact specNormalFn_fixed _ _ rfl rfl
  simp [normalize_tool, canonTool, truthyOpt, isFunctionType, this]

/-- C5: on every (well-formed) tool list, each output entry is
`{ type: 'function', function: { name?, description?, parameters } }`,
where `parameters` comes from the selected source descriptor's
`parameters` field if present, else its `input_schema` field, else
defaults to `{ type: 'object' }`, and `name`/`description` are copied
exactly when present. -/
theorem c5_normalize_tools_shape (tools : List ToolObj)
    (h : ∀ t ∈ tools, t.wfb = true) :
    ∃ out, normalize_tools_object tools = .ok out ∧
      List.Forall₂ (fun o t => ∃ fn, selectFn t = some fn ∧
        o = canonTool (specNormalFn fn)) out tools := by
  obtain ⟨out, hout, hfa⟩ := normalize_tools_wf tools h
  refine ⟨out, hout, List.Forall₂.imp ?_ hfa⟩
  intro o t h0
  obtain ⟨fn, hsel, _, ho⟩ := h0
  exact ⟨fn, hsel, ho⟩

/-- Witness for `c5_normalize_tools_shape` (spec scenario 3). -/
theorem c5_normalize_tools_shape_witness :
    (∀ t ∈ [(⟨none, none, some (.str "foo"), none, none,
        some defaultSchema⟩ : ToolObj)], t.wfb = true)
    ∧ ∃ out, normalize_tools_object
        [(⟨none, none, some (.str "foo"), none, none,
          some defaultSchema⟩ : ToolObj)] = .ok out ∧
      List.Forall₂ (fun o t => ∃ fn, selectFn t = some fn ∧
        o = canonTool (specNormalFn fn)) out
        [(⟨none, none, some (.str "foo"), none, none,
          some defaultSchema⟩ : ToolObj)] :=
  ⟨by decide, c5_normalize_tools_shape _ (by decide)⟩

/-- C6: re-normalizing the normalizer's own output is the identity. -/
theorem c6_normalize_idempotent (tools out : List ToolObj)
    (h : ∀ t ∈ tools, t.wfb = true)
    (hout : normalize_tools_object tools = .ok out) :
    normalize_tools_object out = .ok out := by
  obtain ⟨out', hout', hfa⟩ := normalize_tools_wf tools h
  rw [hout] at hout'
  injection hout' with he
  subst he
  clear hout h
  induction hfa with
  | nil => rfl
  | cons hrel htl ihtl =>
      obtain ⟨fn, hsel, hwf, ho⟩ := hrel
      subst ho
      simp [normalize_tools_object, normalize_tool_canon fn hwf, ihtl]

/-- Witness for `c6_normalize_idempotent`. -/
theorem c6_normalize_idempotent_witness :
    (∀ t ∈ [(⟨none, none, some (.str "foo"), none, none,
        some defaultSchema⟩ : ToolObj)], t.wfb = true)
    ∧ normalize_tools_object
        [(⟨none, none, some (.str "foo"), none, none,
          some defaultSchema⟩ : ToolObj)] =
        .ok [canonTool ⟨some (.str "foo"), none, some defaultSchema, none⟩]
    ∧ normalize_tools_object
        [canonTool ⟨some (.str "foo"), none, some defaultSchema, none⟩] =
        .ok [canonTool ⟨some (.str "foo"), none, some defaultSchema, none⟩] :=
  ⟨by decide, rfl,
    c6_normalize_idempotent
      [(⟨none, none, some (.str "foo"), none, none,
        some defaultSchema⟩ : ToolObj)]
      [canonTool ⟨some (.str "foo"), none, some defaultSchema, none⟩]
      (by decide) rfl⟩

/-- C7: converting the normalizer's output to the Claude shape succeeds
and maps each canonical entry, in order, to
`{ name, description, input_schema: parameters }`, preserving the
selected descriptor's name, description and schema; a falsy `tools` value
yields `undefined`. -/
theorem c7_claude_shape (tools out : List ToolObj)
    (h : ∀ t ∈ tools, t.wfb = true)
    (hout : normalize_tools_object tools = .ok out) :
    (∃ cl, make_claude_tools (some out) = .ok (some cl) ∧
      List.Forall₂ (fun c t => ∃ fn, selectFn t = some fn ∧
        c = ⟨fn.name, fn.description,
          some (fn.parameters.getD (fn.input_schema.getD defaultSchema))⟩)
        cl tools)
    ∧ make_claude_tools none = .ok none := by
  refine ⟨?_, rfl⟩
  obtain ⟨out', hout', hfa⟩ := normalize_tools_wf tools h
  rw [hout] at hout'
  injection hout' with he
  subst he
  clear hout h
  induction hfa with
  | nil => exact ⟨[], rfl, List.Forall₂.nil⟩
  | @cons o t outtail ts hrel htl ihtl =>
      obtain ⟨fn, hsel, hwf, ho⟩ := hrel
      obtain ⟨cl, hcl, hclfa⟩ := ihtl
      have hlist : claude_tools_list outtail = .ok cl := by
        simp only [make_claude_tools] at hcl
        cases hcl0 : claude_tools_list outtail with
        | error e => rw [hcl0] at hcl; simp [Except.map] at hcl
        | ok l =>
            rw [hcl0] at hcl
            simp only [Except.map] at hcl
            injection hcl with h1
            injection h1 with h2
            rw [h2]
      refine ⟨⟨fn.name, fn.description,
          some (fn.parameters.getD (fn.input_schema.getD defaultSchema))⟩ :: cl,
        ?_, List.Forall₂.cons ⟨fn, hsel, rfl⟩ hclfa⟩
      subst ho
      simp only [make_claude_tools, claude_tools_list, claude_tool_of,
        canonTool, hlist, Except.map]
      rfl

/-- Witness for `c7_claude_shape` (spec scenario 3). -/
theorem c7_claude_shape_witness :
    (∀ t ∈ [(⟨none, none, some (.str "foo"), none, none,
        some defaultSchema⟩ : ToolObj)], t.wfb = true)
    ∧ normalize_tools_object
        [(⟨none, none, some (.str "foo"), none, none,
          some defaultSchema⟩ : ToolObj)] =
        .ok [canonTool ⟨some (.str "foo"), none, some defaultSchema, none⟩]
    ∧ ((∃ cl, make_claude_tools (some [canonTool ⟨some (.str "foo"), none,
          some defaultSchema, none⟩]) = .ok (some cl) ∧
        List.Forall₂ (fun c t => ∃ fn, selectFn t = some fn ∧
          c = ⟨fn.name, fn.description,
            some (fn.parameters.getD (fn.input_schema.getD defaultSchema))⟩)
          cl [(⟨none, none, some (.str "foo"), none, none,
            some defaultSchema⟩ : ToolObj)])
      ∧ make_claude_tools none = .ok none) :=
  ⟨by decide, rfl,
    c7_claude_shape
      [(⟨none, none, some (.str "foo"), none, none,
        some defaultSchema⟩ : ToolObj)]
      [canonTool ⟨some (.str "foo"), none, some defaultSchema, none⟩]
      (by decide) rfl⟩

/-! ### The streaming transcoder (lines 106-143, claims C8-C10)

The async IIFE consumes the provider's event sequence; per event it
accumulates usage deltas into `counts`, and for text deltas it writes one
line to the output stream; after the last event it ends the stream and
resolves the usage promise.  The whole run is modelled as the list of
observable actions it performs, in order. -/

/-- The provider's usage object: the two fields the code reads, each
possibly absent. -/
structure UsageObj where
  input_tokens : Option Nat
  output_tokens : Option Nat

/-- The `message` field of a provider event: the code only reads its
`usage`. -/
structure MessageField where
  usage : Option UsageObj

/-- The `delta` field of a provider event. -/
structure Delta where
  type : String
  text : String

/-- A provider stream event: `type`, optional `delta`, and usage either
at top level or nested under `message` (absent or nullish is `none`). -/
structure ProviderEvent where
  type : String
  delta : Option Delta
  usage : Option UsageObj
  message : Option MessageField

/-- The running `counts` object (line 122), both fields starting at 0. -/
structure UsageCounts where
  input_tokens : Nat
  output_tokens : Nat

/-- Lines 124-127: `(event?.usage ?? event?.message?.usage)` — the
top-level `usage` wins whenever it is not nullish. -/
def usageOf (e : ProviderEvent) : Option UsageObj :=
  match e.usage with
  | some u => some u
  | none => match e.message with
    | some msg => msg.usage
    | none => none

/-- Lines 129-130: `if ( input_tokens ) counts.input_tokens += ...` — a
missing or zero (falsy) delta adds nothing. -/
def addIfTruthy (c : Nat) (o : Option Nat) : Nat :=
  match o with
  | some n => if n ≠ 0 then c + n else c
  | none => c

/-- Lines 124-130: accumulate one event's usage deltas into `counts`. -/
def stepUsage (c : UsageCounts) (e : ProviderEvent) : UsageCounts :=
  { input_tokens := addIfTruthy c.input_tokens
      ((usageOf e).bind UsageObj.input_tokens)
    output_tokens := addIfTruthy c.output_tokens
      ((usageOf e).bind UsageObj.output_tokens) }

/-- Lines 132-139: emit nothing unless
`event.type === 'content_block_delta'` and
`event.delta.type === 'text_delta'`; in JS, reading `event.delta.type`
when `delta` is absent throws, modelled as `Except.error`. -/
def stepEmit (e : ProviderEvent) : Except Unit (Option String) :=
  if e.type ≠ "content_block_delta" then .ok none
  else match e.delta with
    | none => .error ()
    | some d => if d.type ≠ "text_delta" then .ok none else .ok (some d.text)

/-- An observable action of the streaming task: writing the ndjson line
for one outbound `StreamEvent { text }` (line 139), ending the output
stream (line 141), or resolving the usage promise (line 142). -/
inductive StreamAction where
  | emit (text : String)
  | closeStream
  | resolveUsage (u : UsageCounts)

/-- The `for await` loop (lines 123-142) from a given `counts` state:
per event, accumulate usage, then possibly emit; when the events are
exhausted, end the stream and resolve the usage promise once. -/
def transcodeLoop : List ProviderEvent → UsageCounts →
    Except Unit (List StreamAction)
  | [], c => .ok [StreamAction.closeStream, StreamAction.resolveUsage c]
  | e :: es, c =>
    match stepEmit e with
    | .error err => .error err
    | .ok none => transcodeLoop es (stepUsage c e)
    | .ok (some t) =>
      match transcodeLoop es (stepUsage c e) with
      | .error err => .error err
      | .ok as => .ok (StreamAction.emit t :: as)

/-- The whole streaming task over a finite provider event sequence,
starting from `{ input_tokens: 0, output_tokens: 0 }` (line 122). -/
def transcode (events : List ProviderEvent) : Except Unit (List StreamAction) :=
  transcodeLoop events ⟨0, 0⟩

/-- Stated from the spec's words: the text-delta value carried by one
event — one text exactly for a text-delta content event. -/
def textDeltaOf (e : ProviderEvent) : List String :=
  match e.delta with
  | some d =>
      if e.type = "content_block_delta" ∧ d.type = "text_delta" then [d.text]
      else []
  | none => []

/-- Stated from the spec's words: the text-delta values carried by the
input event sequence, in order. -/
def textDeltasSpec (events : List ProviderEvent) : List String :=
  (events.map textDeltaOf).flatten

/-- The texts of the emitted StreamEvents of a trace, in order. -/
def emittedTexts (tr : List StreamAction) : List String :=
  (tr.map (fun a =>
    match a with
    | .emit t => [t]
    | _ => [])).flatten

/-- Stated from the spec's words: totals starting at `{0, 0}` and summing
every usage delta observed across the events. -/
def specTotals (events : List ProviderEvent) : UsageCounts :=
  { input_tokens :=
      (events.map (fun e => (((usageOf e).bind UsageObj.input_tokens)).getD 0)).sum
    output_tokens :=
      (events.map (fun e => (((usageOf e).bind UsageObj.output_tokens)).getD 0)).sum }

theorem addIfTruthy_eq (c : Nat) (o : Option Nat) :
    addIfTruthy c o = c + o.getD 0 := by
  cases o with
  | none => simp [addIfTruthy]
  | some n =>
      by_cases hn : n = 0
      · simp [addIfTruthy, hn]
      · simp [addIfTruthy, hn]

theorem stepEmit_ok_none (e : ProviderEvent) (h : stepEmit e = .ok none) :
    textDeltaOf e = [] := by
  obtain ⟨ty, delta, usage, msg⟩ := e
  by_cases hty : ty = "content_block_delta"
  · subst hty
    cases delta with
    | none => simp [stepEmit] at h
    | some d =>
        by_cases hdt : d.type = "text_delta"
        · simp [stepEmit, hdt] at h
        · simp [textDeltaOf, hdt]
  · cases delta with
    | none => simp [textDeltaOf]
    | some d => simp [textDeltaOf, hty]

theorem stepEmit_ok_some (e : ProviderEvent) (t : String)
    (h : stepEmit e = .ok (some t)) : textDeltaOf e = [t] := by
  obtain ⟨ty, delta, usage, msg⟩ := e
  by_cases hty : ty = "content_block_delta"
  · subst hty
    cases delta with
    | none => simp [stepEmit] at h
    | some d =>
        by_cases hdt : d.type = "text_delta"
        · simp [stepEmit, hdt] at h
          simp [textDeltaOf, hdt, h]
        · simp [stepEmit, hdt] at h
  · simp [stepEmit, hty] at h

theorem transcodeLoop_ok (events : List ProviderEvent) :
    ∀ (c : UsageCounts) (tr : List StreamAction),
      transcodeLoop events c = .ok tr →
      ∃ ws, tr = ws ++ [StreamAction.closeStream,
          StreamAction.resolveUsage (events.foldl stepUsage c)]
        ∧ (∀ a ∈ ws, ∃ t, a = StreamAction.emit t)
        ∧ emittedTexts tr = textDeltasSpec events := by
  induction events with
  | nil =>
      intro c tr h
      injection h with h
      subst h
      exact ⟨[], rfl, by simp, rfl⟩
  | cons e es ih =>
      intro c tr h
      unfold transcodeLoop at h
      cases hse : stepEmit e with
      | error err => rw [hse] at h; exact absurd h (by simp)
      | ok o =>
          rw [hse] at h
          cases o with
          | none =>
              obtain ⟨ws, htr, hws, hem⟩ := ih (stepUsage c e) tr h
              refine ⟨ws, by simpa using htr, hws, ?_⟩
              rw [hem]
              unfold textDeltasSpec
              rw [List.map_cons, List.flatten_cons, stepEmit_ok_none e hse]
              simp [textDeltasSpec]
          | some t =>
              cases hrec : transcodeLoop es (stepUsage c e) with
              | error err => rw [hrec] at h; exact absurd h (by simp)
              | ok as =>
                  rw [hrec] at h
                  injection h with h
                  subst h
                  obtain ⟨ws, htr, hws, hem⟩ := ih (stepUsage c e) as hrec
                  refine ⟨StreamAction.emit t :: ws, ?_, ?_, ?_⟩
                  · rw [htr]; simp
                  · intro a ha
                    rcases List.mem_cons.mp ha with ha | ha
                    · exact ⟨t, ha⟩
                    · exact hws a ha
                  · unfold emittedTexts textDeltasSpec at hem ⊢
                    rw [List.map_cons, List.map_cons, List.flatten_cons,
                      List.flatten_cons, stepEmit_ok_some e t hse, hem]

theorem foldl_stepUsage_totals (events : List ProviderEvent) :
    ∀ c : UsageCounts, events.foldl stepUsage c =
      ⟨c.input_tokens + (specTotals events).input_tokens,
       c.output_tokens + (specTotals events).output_tokens⟩ := by
  induction events with
  | nil =>
      intro c
      cases c
      simp [specTotals]
  | cons e es ih =>
      intro c
      rw [List.foldl_cons, ih (stepUsage c e)]
      unfold specTotals stepUsage
      simp only [List.map_cons, List.sum_cons, addIfTruthy_eq,
        UsageCounts.mk.injEq]
      constructor <;> omega

theorem specTotals_eq_foldl (events : List ProviderEvent) :
    events.foldl stepUsage ⟨0, 0⟩ = specTotals events := by
  rw [foldl_stepUsage_totals events ⟨0, 0⟩]
  simp

/-- C8: on every finite provider event sequence the streaming task can
process, the concatenation of the texts of the emitted StreamEvents
equals the concatenation of the text-delta values of the input events, in
order (and non-text-delta events emit nothing). -/
theorem c8_stream_text_concat (events : List ProviderEvent)
    (tr : List StreamAction) (h : transcode events = .ok tr) :
    emittedTexts tr = textDeltasSpec events
    ∧ String.join (emittedTexts tr) = String.join (textDeltasSpec events) := by
  obtain ⟨ws, htr, hws, hem⟩ := transcodeLoop_ok events ⟨0, 0⟩ tr h
  exact ⟨hem, congrArg String.join hem⟩

/-- Witness for `c8_stream_text_concat` (spec scenario 5). -/
theorem c8_stream_text_concat_witness :
    transcode
        [⟨"content_block_delta", some ⟨"text_delta", "Hel"⟩, none, none⟩,
         ⟨"content_block_delta", some ⟨"text_delta", "lo"⟩, none, none⟩,
         ⟨"message_delta", none, some ⟨some 3, some 5⟩, none⟩] =
      .ok [StreamAction.emit "Hel", StreamAction.emit "lo",
        StreamAction.closeStream, StreamAction.resolveUsage ⟨3, 5⟩]
    ∧ (emittedTexts [StreamAction.emit "Hel", StreamAction.emit "lo",
          StreamAction.closeStream, StreamAction.resolveUsage ⟨3, 5⟩] =
        textDeltasSpec
          [⟨"content_block_delta", some ⟨"text_delta", "Hel"⟩, none, none⟩,
           ⟨"content_block_delta", some ⟨"text_delta", "lo"⟩, none, none⟩,
           ⟨"message_delta", none, some ⟨some 3, some 5⟩, none⟩]
      ∧ String.join (emittedTexts [StreamAction.emit "Hel",
          StreamAction.emit "lo", StreamAction.closeStream,
          StreamAction.resolveUsage ⟨3, 5⟩]) =
        String.join (textDeltasSpec
          [⟨"content_block_delta", some ⟨"text_delta", "Hel"⟩, none, none⟩,
           ⟨"content_block_delta", some ⟨"text_delta", "lo"⟩, none, none⟩,
           ⟨"message_delta", none, some ⟨some 3, some 5⟩, none⟩])) :=
  ⟨rfl, c8_stream_text_concat _ _ rfl⟩

/-- Whether an action resolves the usage promise. -/
def isResolve : StreamAction → Bool
  | .resolveUsage _ => true
  | _ => false

/-- C9: on every finite provider event sequence the streaming task can
process, the trace resolves the usage promise exactly once, as the very
last action, after every stream write and after the stream is closed, and
it resolves with totals that start from `{0, 0}` and sum every usage
delta observed across the events. -/
theorem c9_usage_resolution (events : List ProviderEvent)
    (tr : List StreamAction) (h : transcode events = .ok tr) :
    tr.countP (fun a => isResolve a) = 1
    ∧ ∃ ws, tr = ws ++ [StreamAction.closeStream,
        StreamAction.resolveUsage (specTotals events)]
      ∧ ∀ a ∈ ws, ∃ t, a = StreamAction.emit t := by
  obtain ⟨ws, htr, hws, hem⟩ := transcodeLoop_ok events ⟨0, 0⟩ tr h
  rw [specTotals_eq_foldl events] at htr
  refine ⟨?_, ws, htr, hws⟩
  rw [htr, List.countP_append]
  have hz : ws.countP (fun a => isResolve a) = 0 := by
    rw [List.countP_eq_zero]
    intro a ha
    obtain ⟨t, hat⟩ := hws a ha
    rw [hat]
    simp [isResolve]
  rw [hz]
  rfl

/-- Witness for `c9_usage_resolution` (spec scenario 5). -/
theorem c9_usage_resolution_witness :
    transcode
        [⟨"content_block_delta", some ⟨"text_delta", "Hel"⟩, none, none⟩,
         ⟨"content_block_delta", some ⟨"text_delta", "lo"⟩, none, none⟩,
         ⟨"message_delta", none, some ⟨some 3, some 5⟩, none⟩] =
      .ok [StreamAction.emit "Hel", StreamAction.emit "lo",
        StreamAction.closeStream, StreamAction.resolveUsage ⟨3, 5⟩]
    ∧ ([StreamAction.emit "Hel", StreamAction.emit "lo",
          StreamAction.closeStream,
          StreamAction.resolveUsage ⟨3, 5⟩].countP (fun a => isResolve a) = 1
      ∧ ∃ ws, [StreamAction.emit "Hel", StreamAction.emit "lo",
          StreamAction.closeStream, StreamAction.resolveUsage ⟨3, 5⟩] =
          ws ++ [StreamAction.closeStream,
            StreamAction.resolveUsage (specTotals
              [⟨"content_block_delta", some ⟨"text_delta", "Hel"⟩, none, none⟩,
               ⟨"content_block_delta", some ⟨"text_delta", "lo"⟩, none, none⟩,
               ⟨"message_delta", none, some ⟨some 3, some 5⟩, none⟩])]
        ∧ ∀ a ∈ ws, ∃ t, a = StreamAction.emit t) :=
  ⟨rfl, c9_usage_resolution _ _ rfl⟩

/-- C10: when a provider event carries a (truthy) top-level `usage`
object, the token deltas are read from it exclusively — the nested
`message.usage` is not consulted, whatever it holds. -/
theorem c10_top_level_usage_wins (ty : String) (d : Option Delta)
    (u : UsageObj) (msg : Option MessageField) (c : UsageCounts) :
    usageOf ⟨ty, d, some u, msg⟩ = some u
    ∧ stepUsage c ⟨ty, d, some u, msg⟩ = stepUsage c ⟨ty, d, some u, none⟩
    ∧ stepUsage c ⟨ty, d, some u, msg⟩ =
      ⟨addIfTruthy c.input_tokens u.input_tokens,
       addIfTruthy c.output_tokens u.output_tokens⟩ :=
  ⟨rfl, rfl, rfl⟩

/-- Sanity check (spec scenario 1): a single user message with string
content is wrapped into a one-element text-part array. -/
theorem sanity_single_user :
    adapt_messages [⟨some "user", .str "hi"⟩] =
      ([⟨some "user", .arr [textPart "hi"]⟩], []) := rfl

/-- Sanity check (spec scenario 2): two consecutive user messages are
merged into a single entry. -/
theorem sanity_consecutive_users :
    adapt_messages [⟨some "user", .str "a"⟩, ⟨some "user", .str "b"⟩] =
      ([⟨some "user", .arr [textPart "a", textPart "b"]⟩], []) := rfl

/-- Sanity check: a system message is diverted to `system_prompts` and a
role-less message defaults to `user`. -/
theorem sanity_system_and_default_role :
    adapt_messages [⟨some "system", .str "s"⟩, ⟨none, .str "q"⟩] =
      ([⟨some "user", .arr [textPart "q"]⟩], [textPart "s"]) := rfl

/-- C1: for every input message sequence, `adapted_messages` contains no
system-role entry and no two consecutive user-role entries, and
`system_prompts` holds exactly the content parts of the system-role
messages in their original encounter order. -/
theorem c1_adapted_invariants (messages : List Msg) :
    (∀ m ∈ (adapt_messages messages).1, m.role ≠ some "system")
    ∧ List.Chain' notBothUser ((adapt_messages messages).1.map Msg.role)
    ∧ (adapt_messages messages).2 = systemPartsSpec messages := by
  have hinv : AdaptInv (messages.foldl adaptStep ⟨[], [], false⟩) := by
    refine foldl_adaptStep_inv messages ⟨[], [], false⟩ ⟨?_, ?_, ?_, ?_⟩
    · intro m hm; exact absurd hm (List.not_mem_nil m)
    · exact List.chain'_nil
    · intro _ m hm; exact absurd hm (List.not_mem_nil m)
    · intro hc; exact absurd hc (by simp)
  refine ⟨hinv.no_system, hinv.no_consec, ?_⟩
  show (messages.foldl adaptStep ⟨[], [], false⟩).system_prompts = _
  rw [foldl_adaptStep_sys]
  rfl

/-- Witness for `c1_adapted_invariants` at a concrete input. -/
theorem c1_adapted_invariants_witness :
    ((⟨some "assistant", .arr [textPart "b"]⟩ : Msg) ∈
        (adapt_messages [⟨some "system", .str "s"⟩,
          ⟨some "assistant", .str "b"⟩]).1)
    ∧ (⟨some "assistant", JsVal.arr [textPart "b"]⟩ : Msg).role ≠ some "system"
    ∧ (adapt_messages [⟨some "system", .str "s"⟩,
          ⟨some "assistant", .str "b"⟩]).2 =
        systemPartsSpec [⟨some "system", .str "s"⟩,
          ⟨some "assistant", .str "b"⟩] := by
  have hm : (⟨some "assistant", JsVal.arr [textPart "b"]⟩ : Msg) ∈
      (adapt_messages [⟨some "system", .str "s"⟩,
        ⟨some "assistant", .str "b"⟩]).1 := by
    show (⟨some "assistant", JsVal.arr [textPart "b"]⟩ : Msg) ∈
      [(⟨some "assistant", JsVal.arr [textPart "b"]⟩ : Msg)]
    exact List.Mem.head _
  exact ⟨hm,
    (c1_adapted_invariants [⟨some "system", .str "s"⟩,
      ⟨some "assistant", .str "b"⟩]).1 _ hm,
    (c1_adapted_invariants [⟨some "system", .str "s"⟩,
      ⟨some "assistant", .str "b"⟩]).2.2⟩

/-- C2 (what the code actually does at the failing input): since
`previous_was_user` is never cleared, a user message that follows an
assistant entry is merged into that assistant entry instead of being
appended as a new entry — the claimed merge-only-after-user policy is
violated by the code. -/
theorem c2_user_after_assistant_is_merged :
    adapt_messages
        [⟨some "user", .str "a"⟩, ⟨some "assistant", .str "b"⟩,
         ⟨some "user", .str "c"⟩] =
      ([⟨some "user", .arr [textPart "a"]⟩,
        ⟨some "assistant", .arr [textPart "b", textPart "c"]⟩], []) := rfl

end Puter
